import Mathlib

/-!
Verification of the functional-programming utility toolkit of this
repository: fixed-arity currying (`project/hw3/curry.py`), lazy stream
pipelines (`project/hw2/generators.py`), and the FIFO memo cache and
smart-argument binder (`project/hw3/decorators.py`).  Python callables,
values and call-time state are shallowly embedded as executable Lean
definitions, and each claim about the specification is settled by a
theorem below.
-/

/-- Python exceptions that the embedded code can raise.  `valueError`,
`typeError`, `assertionError` and `keyError` stand for the corresponding
built-in Python exception classes. -/
inductive PyErr where
  | valueError : PyErr
  | typeError : PyErr
  | assertionError : PyErr
  | keyError : PyErr
deriving DecidableEq

/-- A Python value as seen by the currying module: either a plain
(non-callable) result value of type `V`, a single-argument closure such as
the lambda produced by the inner `curry` recursion, or a positional
callable (the underlying `func`, invoked with however many positional
arguments have accumulated). -/
inductive PyFun (V : Type) where
  | raw : V → PyFun V
  | closure : (V → PyFun V) → PyFun V
  | variadic : (List V → V) → PyFun V

/-- Calling a Python value with a list of positional arguments: a raw value
is not callable (`TypeError`), the one-argument lambda from `curry` accepts
exactly one argument, and the underlying function accepts any number of
positional arguments. -/
def PyFun.call {V : Type} : PyFun V → List V → Except PyErr (PyFun V)
  | .raw _, _ => .error .typeError
  | .closure f, [x] => .ok (f x)
  | .closure _, _ => .error .typeError
  | .variadic f, xs => .ok (.raw (f xs))

/-- Inner recursion of `curry_explicit` (curry.py lines 40-44): once the
collected arguments reach the arity, `func` is applied to them; otherwise a
one-argument closure collecting the next argument is returned.  The Python
recursion maintains `len(args) <= arity`; that invariant is carried as the
explicit hypothesis `hle`, and the recursion is on `arity - args.length`. -/
def curry_rec {V : Type} (func : List V → V) (arity : Nat) (args : List V)
    (hle : args.length ≤ arity) : PyFun V :=
  if heq : args.length = arity then .raw (func args)
  else .closure fun x => curry_rec func arity (args ++ [x]) (by
    simp only [List.length_append, List.length_cons, List.length_nil]; omega)
termination_by arity - args.length
decreasing_by
  simp only [List.length_append, List.length_cons, List.length_nil]; omega

/-- `curry_explicit` (curry.py lines 4-46): negative arity raises
`ValueError`; arity `0` returns `func` unchanged; otherwise the inner
recursion is started with an empty argument list. -/
def curry_explicit {V : Type} (func : List V → V) (arity : Int) :
    Except PyErr (PyFun V) :=
  if arity < 0 then .error .valueError
  else if arity = 0 then .ok (.variadic func)
  else .ok (curry_rec func arity.toNat [] (by simp))

/-- `uncurry_explicit` (curry.py lines 49-96): negative arity raises
`ValueError`; arity `0` returns the curried callable unchanged (calling the
result simply calls it); otherwise the result is a callable that demands
exactly `arity` positional arguments (`TypeError` otherwise) and feeds them
one at a time into the curried chain. -/
def uncurry_explicit {V : Type} (func : PyFun V) (arity : Int) :
    Except PyErr (List V → Except PyErr (PyFun V)) :=
  if arity < 0 then .error .valueError
  else if arity = 0 then .ok fun args => func.call args
  else .ok fun args =>
    if args.length ≠ arity.toNat then .error .typeError
    else args.foldlM (fun result arg => result.call [arg]) func

/-- A Python generator object, as returned by calling a generator function:
constructing it runs none of the body's code; `run` is the effect of
draining it (iterating it to exhaustion), which either raises an exception
or yields the finite list of produced elements. -/
structure PyGen (α : Type) where
  run : Except PyErr (List α)

/-- The `map` branch wrapper of `as_func` (generators.py lines 63-67): lazily
yields `func item` for each input item, in order.  On finite inputs its
drained output is this list. -/
def map_wrapper {α β : Type} (func : α → β) : List α → List β
  | [] => []
  | x :: xs => func x :: map_wrapper func xs

/-- The `filter` branch wrapper of `as_func` (generators.py lines 73-77):
lazily yields exactly the items on which the predicate is truthy, in order. -/
def filter_wrapper {α : Type} (predicate : α → Bool) : List α → List α
  | [] => []
  | x :: xs =>
    if predicate x then x :: filter_wrapper predicate xs
    else filter_wrapper predicate xs

/-- `as_func` applied to the built-in `map` (generators.py lines 61-67):
requires `func`, raising `ValueError` when it is absent. -/
def as_func_map {α β : Type} (func : Option (α → β)) :
    Except PyErr (List α → List β) :=
  match func with
  | none => .error .valueError
  | some f => .ok (map_wrapper f)

/-- `as_func` applied to the built-in `filter` (generators.py lines 69-77):
the predicate is `func or pred` (the first one that is not `None`), and
`ValueError` is raised when both are absent. -/
def as_func_filter {α : Type} (func pred : Option (α → Bool)) :
    Except PyErr (List α → List α) :=
  match (match func with | some f => some f | none => pred) with
  | none => .error .valueError
  | some p => .ok (filter_wrapper p)

/-- Body of the generator function `pipe` (generators.py lines 108-138),
packaged as the generator object the call returns: raising `ValueError` on
an empty operator list, otherwise folding the operators left to right over
the stream, happens only when the generator is consumed. -/
def pipe {α : Type} (streams : List α)
    (operators : List (List α → List α)) : PyGen α :=
  ⟨match operators with
    | [] => .error .valueError
    | _ :: _ => .ok (operators.foldl (fun result op => op result) streams)⟩

/-- Calling the generator function `pipe`: Python runs none of the body at
call time, so the call always succeeds and returns the generator object. -/
def pipe_call {α : Type} (streams : List α)
    (operators : List (List α → List α)) : Except PyErr (PyGen α) :=
  .ok (pipe streams operators)

/-- `collect` (generators.py lines 140-156): eagerly drains the generator
into a list; exceptions raised by the generator body propagate. -/
def collect {α : Type} (gen : PyGen α) : Except PyErr (List α) := gen.run

/-- Spec side of claim C6, written from the specification's words: the
Python list comprehension `[f(x) for x in seq if p(x)]`. -/
def list_comprehension {α β : Type} (f : α → β) (p : α → Bool)
    (seq : List α) : List β :=
  (seq.filter p).map f

/-- A Python argument value for the cache model: integers and strings are
hashable, lists are not. -/
inductive PyVal where
  | vint : Int → PyVal
  | vstr : String → PyVal
  | vlist : List PyVal → PyVal

mutual
/-- Python `==` on cache argument values: by value on numbers and strings,
elementwise on lists, `False` across types. -/
def PyVal.beq : PyVal → PyVal → Bool
  | .vint a, .vint b => a == b
  | .vstr a, .vstr b => a == b
  | .vlist a, .vlist b => beqPyValList a b
  | _, _ => false

/-- Python `==` on lists of cache argument values, elementwise. -/
def beqPyValList : List PyVal → List PyVal → Bool
  | [], [] => true
  | a :: as, b :: bs => PyVal.beq a b && beqPyValList as bs
  | _, _ => false
end

/-- Hashability of a Python value: `hash` succeeds on numbers and strings
and raises `TypeError` on lists. -/
def PyVal.hashable : PyVal → Bool
  | .vint _ => true
  | .vstr _ => true
  | .vlist _ => false

/-- One insertion step of sorting keyword items by keyword name. -/
def insertKw (p : String × PyVal) :
    List (String × PyVal) → List (String × PyVal)
  | [] => [p]
  | q :: rest => if p.1 ≤ q.1 then p :: q :: rest else q :: insertKw p rest

/-- `sorted(kwargs.items())`: keyword items sorted by keyword name
(keyword names in a call are distinct, so the value part never decides). -/
def sortKw : List (String × PyVal) → List (String × PyVal)
  | [] => []
  | p :: rest => insertKw p (sortKw rest)

/-- The canonical cache key of `cache_keys` (decorators.py lines 63-68):
the positional-argument tuple together with the sorted keyword items. -/
abbrev CacheKey := List PyVal × List (String × PyVal)

/-- Python `==` on cache keys. -/
def beqKwList : List (String × PyVal) → List (String × PyVal) → Bool
  | [], [] => true
  | p :: ps, q :: qs => (p.1 == q.1) && PyVal.beq p.2 q.2 && beqKwList ps qs
  | _, _ => false

/-- Equality of two canonical cache keys, as Python compares dict keys. -/
def beqKey (k1 k2 : CacheKey) : Bool :=
  beqPyValList k1.1 k2.1 && beqKwList k1.2 k2.2

/-- `cache_keys` (decorators.py lines 63-68): builds the canonical key
`(args,) + tuple(sorted(kwargs.items()))` and hashes it, which raises
`TypeError` exactly when some positional argument or keyword value is
unhashable (keyword names are strings and always hashable). -/
def cache_keys (args : List PyVal) (kwargs : List (String × PyVal)) :
    Except PyErr CacheKey :=
  if (args.all PyVal.hashable && kwargs.all fun p => p.2.hashable) then
    .ok (args, sortKw kwargs)
  else .error .typeError

/-- Python dict lookup (`key in cache` / `cache[key]`). -/
def dictGet {ν : Type} (k : CacheKey) : List (CacheKey × ν) → Option ν
  | [] => none
  | (k', v) :: rest => if beqKey k k' then some v else dictGet k rest

/-- Python dict assignment `cache[key] = result` (appends a fresh key,
overwrites an equal one). -/
def dictSet {ν : Type} (k : CacheKey) (v : ν) :
    List (CacheKey × ν) → List (CacheKey × ν)
  | [] => [(k, v)]
  | (k', v') :: rest =>
    if beqKey k k' then (k', v) :: rest else (k', v') :: dictSet k v rest

/-- Python `del cache[key]`. -/
def dictDel {ν : Type} (k : CacheKey) :
    List (CacheKey × ν) → List (CacheKey × ν)
  | [] => []
  | (k', v') :: rest =>
    if beqKey k k' then rest else (k', v') :: dictDel k rest

/-- The mutable closure state of one `cache_func` wrapper: the entry dict
`cache` and the FIFO eviction deque `key_ord`. -/
structure CacheState where
  cache : List (CacheKey × PyVal)
  key_ord : List CacheKey

/-- One call through the `cache_func` wrapper for `maxsize > 0`
(decorators.py lines 126-147).  Returns the call result, the state after
the call, and whether the underlying function was invoked.  The `[]`
branch of the deque match is unreachable: `ord1` always ends in `key`. -/
def cache_wrapper (maxsize : Nat)
    (fn : List PyVal → List (String × PyVal) → PyVal) (st : CacheState)
    (args : List PyVal) (kwargs : List (String × PyVal)) :
    PyVal × CacheState × Bool :=
  match cache_keys args kwargs with
  | .error _ => (fn args kwargs, st, true)
  | .ok key =>
    match dictGet key st.cache with
    | some v => (v, st, false)
    | none =>
      let result := fn args kwargs
      let cache1 := dictSet key result st.cache
      let ord1 := st.key_ord ++ [key]
      if maxsize < cache1.length then
        match ord1 with
        | [] => (result, ⟨cache1, []⟩, true)
        | pop :: rest => (result, ⟨dictDel pop cache1, rest⟩, true)
      else (result, ⟨cache1, ord1⟩, true)

/-- Runs a sequence of calls through a freshly decorated function and
records, per call, whether the underlying function was invoked. -/
def cache_run (maxsize : Nat)
    (fn : List PyVal → List (String × PyVal) → PyVal)
    (calls : List (List PyVal × List (String × PyVal))) :
    CacheState × List Bool :=
  calls.foldl (fun acc call =>
    let step := cache_wrapper maxsize fn acc.1 call.1 call.2
    (step.2.1, acc.2 ++ [step.2.2])) (⟨[], []⟩, [])

/-- A Python value in the smart-argument model.  Marker objects carry an
identity number: Python compares `Isolated`/`Evaluated` instances by
object identity, and `Evaluated` instances additionally carry their thunk
(named by a thunk number).  `pboth` is an instance of a user subclass of
both `Isolated` and `Evaluated`. -/
inductive PyObj where
  | pint : Int → PyObj
  | pstr : String → PyObj
  | plist : List PyObj → PyObj
  | pisolated : Nat → PyObj
  | pevaluated : Nat → Nat → PyObj
  | pboth : Nat → Nat → PyObj

mutual
/-- Python `==` on smart-argument values: by value on numbers and strings,
elementwise on lists, by object identity on marker instances. -/
def PyObj.beq : PyObj → PyObj → Bool
  | .pint a, .pint b => a == b
  | .pstr a, .pstr b => a == b
  | .plist a, .plist b => beqPyObjList a b
  | .pisolated i, .pisolated j => i == j
  | .pevaluated i _, .pevaluated j _ => i == j
  | .pboth i _, .pboth j _ => i == j
  | _, _ => false

/-- Python `==` on lists of smart-argument values, elementwise. -/
def beqPyObjList : List PyObj → List PyObj → Bool
  | [], [] => true
  | a :: as, b :: bs => PyObj.beq a b && beqPyObjList as bs
  | _, _ => false
end

mutual
/-- `copy.deepcopy` at the identity level: structure and payloads are
preserved while every copied marker instance receives a fresh identity,
drawn from the counter threaded through the copy. -/
def deepcopyObj : Nat → PyObj → PyObj × Nat
  | n, .pint k => (.pint k, n)
  | n, .pstr s => (.pstr s, n)
  | n, .plist xs =>
    let r := deepcopyObjList n xs
    (.plist r.1, r.2)
  | n, .pisolated _ => (.pisolated n, n + 1)
  | n, .pevaluated _ t => (.pevaluated n t, n + 1)
  | n, .pboth _ t => (.pboth n t, n + 1)

/-- `copy.deepcopy` of a list of values, threading the identity counter. -/
def deepcopyObjList : Nat → List PyObj → List PyObj × Nat
  | n, [] => ([], n)
  | n, x :: xs =>
    let r1 := deepcopyObj n x
    let r2 := deepcopyObjList r1.2 xs
    (r1.1 :: r2.1, r2.2)
end

/-- The kind of a declared Python parameter. -/
inductive ParamKind where
  | posOnly : ParamKind
  | posOrKw : ParamKind
  | kwOnly : ParamKind
deriving DecidableEq

/-- One declared parameter of a wrapped function: its name, kind, and
declared default (if any). -/
structure Param where
  name : String
  kind : ParamKind
  default : Option PyObj

/-- `isinstance(x, Isolated)`. -/
def isInstanceIsolated : PyObj → Bool
  | .pisolated _ => true
  | .pboth _ _ => true
  | _ => false

/-- `isinstance(x, Evaluated)`. -/
def isInstanceEvaluated : PyObj → Bool
  | .pevaluated _ _ => true
  | .pboth _ _ => true
  | _ => false

/-- The `.func` attribute of an `Evaluated` instance (its thunk). -/
def evaluatedThunk : PyObj → Nat
  | .pevaluated _ t => t
  | .pboth _ t => t
  | _ => 0

/-- `isinstance(param.default, Isolated)` for a declared parameter. -/
def defaultIsIso (p : Param) : Bool :=
  match p.default with
  | some d => isInstanceIsolated d
  | none => false

/-- `isinstance(param.default, Evaluated)` for a declared parameter. -/
def defaultIsEva (p : Param) : Bool :=
  match p.default with
  | some d => isInstanceEvaluated d
  | none => false

/-- `param.default.func` for a declared parameter with an Evaluated default. -/
def defaultThunk (p : Param) : Nat :=
  match p.default with
  | some d => evaluatedThunk d
  | none => 0

/-- The decoration-time loop of `smart_args` (decorators.py lines 248-274):
classify every declared parameter, enforcing the two `assert` statements
(marker on a keyword-incapable parameter without `pos_args`, and a default
that is an instance of both markers), and collect the isolation set and the
evaluation table (name to thunk), both in signature order. -/
def smart_args_classify (pos_args : Bool) :
    List Param → Except PyErr (List String × List (String × Nat))
  | [] => .ok ([], [])
  | p :: ps =>
    let is_kwarg := p.kind == .kwOnly || p.kind == .posOrKw
    let is_pos_allowed :=
      pos_args && (p.kind == .posOnly || p.kind == .posOrKw)
    let is_iso := defaultIsIso p
    let is_eva := defaultIsEva p
    if !((is_kwarg || is_pos_allowed) || !(is_iso || is_eva)) then
      .error .assertionError
    else if is_iso && is_eva then .error .assertionError
    else
      match smart_args_classify pos_args ps with
      | .error e => .error e
      | .ok (iso, eva) =>
        .ok ((if is_iso then p.name :: iso else iso),
             (if !is_iso && is_eva then (p.name, defaultThunk p) :: eva
              else eva))

/-- Lookup in an association list keyed by strings (Python dict access). -/
def lookupStr {β : Type} (k : String) : List (String × β) → Option β
  | [] => none
  | (k', v) :: rest => if k == k' then some v else lookupStr k rest

/-- In-place update of an existing entry of a string-keyed association
list (Python dict assignment to a present key). -/
def updateStr {β : Type} (k : String) (v : β) :
    List (String × β) → List (String × β)
  | [] => []
  | (k', v') :: rest =>
    if k' == k then (k', v) :: rest else (k', v') :: updateStr k v rest

/-- Positional phase of `sig.bind`: the leading parameters absorb the
positional arguments in order; a keyword-only parameter or exhausted
parameter list raises `TypeError` (too many positional arguments). -/
def bindPositional : List Param → List PyObj →
    Except PyErr (List (String × PyObj))
  | _, [] => .ok []
  | [], _ :: _ => .error .typeError
  | p :: ps, a :: as =>
    if p.kind == .kwOnly then .error .typeError
    else
      match bindPositional ps as with
      | .error e => .error e
      | .ok rest => .ok ((p.name, a) :: rest)

/-- Keyword phase of `sig.bind`: every keyword must name a keyword-capable
declared parameter that was not already bound positionally. -/
def checkKwargs (params : List Param) (posNames : List String) :
    List (String × PyObj) → Except PyErr Unit
  | [] => .ok ()
  | (k, _) :: rest =>
    match params.find? (fun p => p.name == k) with
    | none => .error .typeError
    | some p =>
      if p.kind == .posOnly then .error .typeError
      else if posNames.contains k then .error .typeError
      else checkKwargs params posNames rest

/-- Missing-argument phase of `sig.bind`: a parameter bound neither
positionally nor by keyword must have a declared default. -/
def checkMissing (bound : List String) : List Param → Except PyErr Unit
  | [] => .ok ()
  | p :: ps =>
    if !bound.contains p.name && p.default.isNone then .error .typeError
    else checkMissing bound ps

/-- `sig.bind(*args, **kwargs)` (decorators.py line 278): produces the
`BoundArguments.arguments` mapping, in signature order, of the parameters
that received a value. -/
def sig_bind (params : List Param) (args : List PyObj)
    (kwargs : List (String × PyObj)) :
    Except PyErr (List (String × PyObj)) :=
  match bindPositional params args with
  | .error e => .error e
  | .ok posB =>
    match checkKwargs params (posB.map fun q => q.1) kwargs with
    | .error e => .error e
    | .ok _ =>
      match checkMissing (posB.map (fun q => q.1) ++ kwargs.map fun q => q.1)
          params with
      | .error e => .error e
      | .ok _ =>
        .ok (params.filterMap fun p =>
          match lookupStr p.name posB with
          | some v => some (p.name, v)
          | none => (lookupStr p.name kwargs).map fun v => (p.name, v))

/-- `arguments.apply_defaults()` (decorators.py line 279): every still
unbound parameter with a declared default is bound to that default (the
raw marker object, when the default is a marker). -/
def apply_defaults (params : List Param)
    (bound : List (String × PyObj)) : List (String × PyObj) :=
  params.filterMap fun p =>
    match lookupStr p.name bound with
    | some v => some (p.name, v)
    | none => p.default.map fun d => (p.name, d)

/-- Isolation pass of the wrapper (decorators.py lines 282-284): every
bound parameter of the isolation set is replaced by a deep copy; the
identity counter supplying fresh identities is threaded through. -/
def iso_pass : List String →
    List (String × PyObj) × Nat → List (String × PyObj) × Nat
  | [], st => st
  | name :: rest, (argsMap, n) =>
    match lookupStr name argsMap with
    | none => iso_pass rest (argsMap, n)
    | some v =>
      let r := deepcopyObj n v
      iso_pass rest (updateStr name r.1 argsMap, r.2)

/-- Evaluation pass of the wrapper (decorators.py lines 286-288): for every
evaluation-table entry whose bound value compares `==` equal to the
declared default marker, the thunk is invoked and its result bound; the
returned list records the names whose thunks were invoked, in order. -/
def eval_pass (params : List Param) (thunkVal : Nat → PyObj) :
    List (String × Nat) → List (String × PyObj) →
    Except PyErr (List (String × PyObj) × List String)
  | [], argsMap => .ok (argsMap, [])
  | (name, t) :: rest, argsMap =>
    match lookupStr name argsMap with
    | none => .error .keyError
    | some v =>
      let dflt : Option PyObj :=
        match params.find? fun p => p.name == name with
        | some p => p.default
        | none => none
      let fire : Bool :=
        match dflt with
        | some d => PyObj.beq v d
        | none => false
      if fire then
        match eval_pass params thunkVal rest
            (updateStr name (thunkVal t) argsMap) with
        | .error e => .error e
        | .ok (m, invs) => .ok (m, name :: invs)
      else eval_pass params thunkVal rest argsMap

/-- One call through the `smart_args` wrapper (decorators.py lines
276-290): bind, apply defaults, isolate, evaluate.  `thunkVal t` is the
value produced by invoking thunk `t`; `fresh` seeds the identity counter
for deep copies.  Returns the final argument mapping handed to the wrapped
function together with the names whose thunks were invoked, in order. -/
def smart_wrapper (pos_args : Bool) (params : List Param)
    (thunkVal : Nat → PyObj) (fresh : Nat) (args : List PyObj)
    (kwargs : List (String × PyObj)) :
    Except PyErr (List (String × PyObj) × List String) :=
  match smart_args_classify pos_args params with
  | .error e => .error e
  | .ok (iso, eva) =>
    match sig_bind params args kwargs with
    | .error e => .error e
    | .ok bound =>
      let argsMap := apply_defaults params bound
      let r := iso_pass iso (argsMap, fresh)
      eval_pass params thunkVal eva r.1

/-- An argument value passed to the `Evaluated` constructor: `None`, a
callable (named by a thunk number), or a non-callable value such as an
integer. -/
inductive ThunkArg where
  | noneArg : ThunkArg
  | callableArg : Nat → ThunkArg
  | intArg : Int → ThunkArg
deriving DecidableEq

/-- Whether a constructor argument is callable. -/
def ThunkArg.callable : ThunkArg → Bool
  | .callableArg _ => true
  | _ => false

/-- The state of a constructed `Evaluated` instance: its stored `func`. -/
structure EvaluatedObj where
  func : ThunkArg
deriving DecidableEq

/-- `Evaluated.__init__` (decorators.py lines 176-179): only `None` is
rejected (with `ValueError`); any other argument, callable or not, is
stored as the thunk. -/
def Evaluated_init (func : ThunkArg) : Except PyErr EvaluatedObj :=
  if func == .noneArg then .error .valueError
  else .ok ⟨func⟩

/-- The declared default of the parameter named `name`
(`sig.parameters[name].default`). -/
def paramDefault (params : List Param) (name : String) : Option PyObj :=
  match params.find? fun p => p.name == name with
  | some p => p.default
  | none => none

/-- Whether the evaluation pass fires for `name` on the given argument
mapping: the bound value compares `==` equal to the declared default. -/
def evalFires (params : List Param) (argsMap : List (String × PyObj))
    (name : String) : Bool :=
  match lookupStr name argsMap, paramDefault params name with
  | some v, some d => PyObj.beq v d
  | _, _ => false

/-- A heap value in the mutation model: a Python int, or a reference to a
heap-allocated list object at the given address. -/
inductive HVal where
  | hint : Int → HVal
  | href : Nat → HVal
deriving DecidableEq

/-- Whether a heap value is an int or a reference at or above address `n`
(i.e. derived from objects allocated at or after the boundary `n`). -/
def HVal.above (n : Nat) : HVal → Bool
  | .hint _ => true
  | .href a => decide (n ≤ a)

/-- The object heap: address `a` holds the mutable Python list object
`objs[a]`; fresh objects are appended at the end, so every address below
`objs.length` is allocated. -/
structure Heap where
  objs : List (List HVal)

/-- Dereferences an address. -/
def Heap.get (h : Heap) (a : Nat) : Option (List HVal) := h.objs[a]?

/-- In-place mutation of the object at address `a` (a no-op on an
unallocated address). -/
def Heap.write (h : Heap) (a : Nat) (o : List HVal) : Heap :=
  ⟨h.objs.set a o⟩

/-- Copies the elements of a list object with `f`, threading the heap. -/
def copyListWith (f : Heap → HVal → Option (Heap × HVal)) :
    Heap → List HVal → Option (Heap × List HVal)
  | h, [] => some (h, [])
  | h, v :: vs =>
    match f h v with
    | none => none
    | some (h1, v') =>
      match copyListWith f h1 vs with
      | none => none
      | some (h2, vs') => some (h2, v' :: vs')

/-- `copy.deepcopy` on the heap model — the deep copy taken by the
isolation pass of `smart_args` (decorators.py line 283), for acyclic list
structures: an int is copied by value; a referenced list object is copied
elementwise and the copy is allocated at a fresh address.  `fuel` bounds
the reference depth; `none` means the fuel did not cover the structure. -/
def deepcopyVal : Nat → Heap → HVal → Option (Heap × HVal)
  | _, h, .hint n => some (h, .hint n)
  | 0, _, .href _ => none
  | fuel + 1, h, .href a =>
    match h.get a with
    | none => none
    | some obj =>
      match copyListWith (deepcopyVal fuel) h obj with
      | none => none
      | some (h1, obj') => some (⟨h1.objs ++ [obj']⟩, .href h1.objs.length)

/-- The pure structural value of a Python object: what the caller can
observe of the original object. -/
inductive PyTree where
  | tint : Int → PyTree
  | tlist : List PyTree → PyTree

/-- Reads the structural values of a list of elements with `f`. -/
def readListWith (f : HVal → Option PyTree) :
    List HVal → Option (List PyTree)
  | [] => some []
  | v :: vs =>
    match f v with
    | none => none
    | some t =>
      match readListWith f vs with
      | none => none
      | some ts => some (t :: ts)

/-- Reads the structural value of a heap value to reference depth `fuel`. -/
def readVal : Nat → Heap → HVal → Option PyTree
  | _, _, .hint n => some (.tint n)
  | 0, _, .href _ => none
  | fuel + 1, h, .href a =>
    match h.get a with
    | none => none
    | some obj =>
      match readListWith (readVal fuel h) obj with
      | none => none
      | some ts => some (.tlist ts)

/-- Collects the reachable addresses of a list of elements with `f`. -/
def reachListWith (f : HVal → List Nat) : List HVal → List Nat
  | [] => []
  | v :: vs => f v ++ reachListWith f vs

/-- Addresses reachable from a value within `fuel` dereferences. -/
def reachAddrs : Nat → Heap → HVal → List Nat
  | _, _, .hint _ => []
  | 0, _, .href a => [a]
  | fuel + 1, h, .href a =>
    a :: (match h.get a with
      | none => []
      | some obj => reachListWith (reachAddrs fuel h) obj)

/-- The mutations a wrapped function body performs through its copied
argument: each write targets an address reachable from the copy `v'` in
the heap current at that step, and stores only values the body derived
from the copy — ints, or references at or above the boundary `n` of the
caller's heap. -/
def okWrites (n rfuel : Nat) (v' : HVal) :
    Heap → List (Nat × List HVal) → Bool
  | _, [] => true
  | h, (a, o) :: rest =>
    decide (a ∈ reachAddrs rfuel h v') &&
    o.all (HVal.above n) &&
    okWrites n rfuel v' (h.write a o) rest

/-- Executes a sequence of mutations against the heap. -/
def execWrites (h : Heap) (ws : List (Nat × List HVal)) : Heap :=
  ws.foldl (fun h w => h.write w.1 w.2) h

/-- Every object stored at or above address `n` references only addresses
at or above `n` — the copied region is closed away from the caller's
original objects. -/
def SegAbove (n : Nat) (h : Heap) : Prop :=
  ∀ a obj, n ≤ a → h.get a = some obj → ∀ v ∈ obj, HVal.above n v = true

theorem PyFun.call_closure {V : Type} (f : V → PyFun V) (x : V) :
    PyFun.call (.closure f) [x] = .ok (f x) := rfl

theorem foldl_call_curry_rec {V : Type} (fn : List V → V) (arity : Nat)
    (args : List V) :
    ∀ (acc : List V) (hle : acc.length ≤ arity),
      acc.length + args.length = arity →
      List.foldlM (fun result arg => PyFun.call result [arg])
          (curry_rec fn arity acc hle) args = .ok (.raw (fn (acc ++ args))) := by
  induction args with
  | nil =>
    intro acc hle hsum
    simp only [List.length_nil] at hsum
    have heq : acc.length = arity := by omega
    rw [curry_rec.eq_def]
    simp [heq, List.foldlM, pure, Except.pure]
  | cons x xs ih =>
    intro acc hle hsum
    simp only [List.length_cons] at hsum
    have hne : acc.length ≠ arity := by omega
    rw [curry_rec.eq_def]
    simp only [hne, dite_false, List.foldlM, PyFun.call_closure, Bind.bind, Except.bind]
    have hrec := ih (acc ++ [x])
      (by simp only [List.length_append, List.length_cons, List.length_nil]; omega)
      (by simp only [List.length_append, List.length_cons, List.length_nil]; omega)
    rw [hrec]
    simp [List.append_assoc]

/-- Claim C1: for every underlying function `fn`, every non-negative arity
and every argument tuple of exactly that arity,
`uncurry_explicit (curry_explicit fn arity) arity` applied to the tuple
returns exactly what `fn` applied directly to the tuple returns (arity `0`
included, where both transforms return `fn` unchanged; `fn` is modelled as a
variadic positional callable fixed to the declared arity). -/
theorem c1_uncurry_curry_roundtrip {V : Type} (fn : List V → V) (arity : Nat)
    (args : List V) (h : args.length = arity) :
    (do
      let c ← curry_explicit fn (arity : Int)
      let u ← uncurry_explicit c (arity : Int)
      u args) = .ok (.raw (fn args)) := by
  cases arity with
  | zero =>
    have : args = [] := List.eq_nil_of_length_eq_zero h
    subst this
    simp [curry_explicit, uncurry_explicit, PyFun.call, Bind.bind, Except.bind]
  | succ n =>
    have hcast0 : ¬((n + 1 : Nat) : Int) < 0 := by omega
    have hcastne : ((n + 1 : Nat) : Int) ≠ 0 := by omega
    simp only [curry_explicit, uncurry_explicit, hcast0, if_false,
      hcastne, if_neg, Int.toNat_natCast]
    have hfold := foldl_call_curry_rec fn (n + 1) args [] (by simp) (by simpa using h)
    simp only [List.nil_append] at hfold
    simp [h, hfold, Bind.bind, Except.bind]

/-- Witness for C1 at `fn` summing its arguments, arity 2, args `[1, 2]`. -/
theorem c1_uncurry_curry_roundtrip_witness :
    ([(1 : Int), 2].length = 2) ∧
    (do
      let c ← curry_explicit (fun l => l.foldr (· + ·) 0) ((2 : Nat) : Int)
      let u ← uncurry_explicit c ((2 : Nat) : Int)
      u [(1 : Int), 2]) = .ok (.raw 3) :=
  ⟨rfl, c1_uncurry_curry_roundtrip _ 2 [1, 2] rfl⟩

/-- Counterexample for claim C5 as stated: calling `pipe` with an empty
operator sequence does not fail at the pipe call itself.  `pipe` is a
generator function, so the call returns a generator object without
executing the body; the `ValueError` surfaces only when the generator is
consumed. -/
theorem c5_counterexample_pipe_call_succeeds :
    pipe_call ([1] : List Int) [] = .ok (pipe [1] []) ∧
    (pipe ([1] : List Int) []).run = .error .valueError :=
  ⟨rfl, rfl⟩

/-- Claim C5 (amended): for every input sequence, `pipe` applied to an empty
operator sequence raises `ValueError` — but only when the returned
generator is first consumed; the `pipe` call itself always succeeds and
returns the generator object. -/
theorem c5_empty_pipeline_error {α : Type} (streams : List α) :
    pipe_call streams [] = .ok (pipe streams []) ∧
    (pipe streams []).run = .error .valueError :=
  ⟨rfl, rfl⟩

theorem map_wrapper_eq_map {α β : Type} (f : α → β) (l : List α) :
    map_wrapper f l = l.map f := by
  induction l with
  | nil => rfl
  | cons x xs ih => simp [map_wrapper, ih]

theorem filter_wrapper_eq_filter {α : Type} (p : α → Bool) (l : List α) :
    filter_wrapper p l = l.filter p := by
  induction l with
  | nil => rfl
  | cons x xs ih => simp [filter_wrapper, ih, List.filter_cons]

/-- Claim C6: for every finite input sequence, predicate `p` and function
`f`, collecting the pipeline of the `as_func` filter stage followed by the
`as_func` map stage equals the list comprehension `[f(x) for x in seq if
p(x)]`, preserving input order; in particular `seq = [-2,-1,0,1,2,3]`,
`p = (0 < x)`, `f = (x * 2)` yields `[2, 4, 6]`. -/
theorem c6_collect_pipe_filter_map {α : Type} (seq : List α) (p : α → Bool)
    (f : α → α) :
    (do
      let fw ← as_func_filter none (some p)
      let mw ← as_func_map (some f)
      collect (pipe seq [fw, mw])) = .ok (list_comprehension f p seq) ∧
    (do
      let fw ← as_func_filter none (some (fun x => decide (0 < x)))
      let mw ← as_func_map (some (fun x => x * 2))
      collect (pipe ([-2, -1, 0, 1, 2, 3] : List Int) [fw, mw]))
      = .ok [2, 4, 6] := by
  constructor
  · simp only [as_func_filter, as_func_map, collect, pipe, pipe_call,
      list_comprehension, Bind.bind, Except.bind, List.foldl]
    simp [map_wrapper_eq_map, filter_wrapper_eq_filter]
  · rfl

/-- Claim C2: with `maxsize = 2`, the call sequence
`f(1,2), f(1,2), f(3,4), f(5,6), f(1,2)` invokes the underlying function on
calls 1, 3, 4 and 5 — the second call is a cache hit and the final call is
a miss, the key `(1, 2)` having been evicted in strict FIFO order — for a
total of exactly 4 invocations, whatever the underlying function computes. -/
theorem c2_cache_fifo_trace
    (fn : List PyVal → List (String × PyVal) → PyVal) :
    (cache_run 2 fn
      [([.vint 1, .vint 2], []), ([.vint 1, .vint 2], []),
       ([.vint 3, .vint 4], []), ([.vint 5, .vint 6], []),
       ([.vint 1, .vint 2], [])]).2 = [true, false, true, true, true] ∧
    ((cache_run 2 fn
      [([.vint 1, .vint 2], []), ([.vint 1, .vint 2], []),
       ([.vint 3, .vint 4], []), ([.vint 5, .vint 6], []),
       ([.vint 1, .vint 2], [])]).2.count true = 4) :=
  ⟨rfl, rfl⟩

/-- Claim C7: a call through a caching wrapper (`maxsize > 0`) whose
positional or keyword arguments contain an unhashable value bypasses the
cache entirely: the underlying function is invoked directly, its result is
returned, no error escapes, and both the entry dict and the eviction deque
are left exactly as they were. -/
theorem c7_unhashable_bypass (maxsize : Nat)
    (fn : List PyVal → List (String × PyVal) → PyVal) (st : CacheState)
    (args : List PyVal) (kwargs : List (String × PyVal))
    (hpos : 0 < maxsize)
    (hun : ((args.any fun v => !v.hashable) ||
            (kwargs.any fun p => !p.2.hashable)) = true) :
    cache_wrapper maxsize fn st args kwargs = (fn args kwargs, st, true) := by
  have hall : (args.all PyVal.hashable &&
      kwargs.all fun p => p.2.hashable) = false := by
    simp only [Bool.or_eq_true, List.any_eq_true, Bool.not_eq_true'] at hun
    rcases hun with ⟨x, hx, hxh⟩ | ⟨p, hp, hph⟩
    · have : args.all PyVal.hashable = false := by
        simp only [List.all_eq_false]; exact ⟨x, hx, by simp [hxh]⟩
      simp [this]
    · have : (kwargs.all fun p => p.2.hashable) = false := by
        simp only [List.all_eq_false]; exact ⟨p, hp, by simp [hph]⟩
      simp [this]
  simp [cache_wrapper, cache_keys, hall]

/-- Witness for C7: one unhashable positional argument (a list) with
`maxsize = 1` and an empty cache. -/
theorem c7_unhashable_bypass_witness :
    ((0 < 1) ∧
      (([PyVal.vlist []].any fun v => !v.hashable) ||
        (([] : List (String × PyVal)).any fun p => !p.2.hashable)) = true) ∧
    cache_wrapper 1 (fun _ _ => .vint 0) ⟨[], []⟩ [.vlist []] []
      = (.vint 0, ⟨[], []⟩, true) :=
  ⟨⟨by decide, rfl⟩,
    c7_unhashable_bypass 1 (fun _ _ => .vint 0) ⟨[], []⟩ [.vlist []] []
      (by decide) rfl⟩

/-- Claim C4 (code bug, evaluated at the failing input): constructing
`Evaluated` with the non-callable integer `5` is silently accepted — the
constructor rejects only `None` — although the class and decorator
docstrings promise a failure for a non-callable thunk. -/
theorem c4_evaluated_accepts_noncallable :
    Evaluated_init (.intArg 5) = .ok ⟨.intArg 5⟩ ∧
    (ThunkArg.intArg 5).callable = false :=
  ⟨rfl, rfl⟩

/-- Counterexample for claim C3 as stated: a caller that explicitly
supplies a value for an Evaluated parameter — here the declared marker
object itself — still triggers one thunk invocation, because the wrapper
fires on `==` equality with the declared default rather than on whether the
parameter was omitted. -/
theorem c3_counterexample_marker_supplied :
    smart_wrapper false [⟨"x", .kwOnly, some (.pevaluated 0 7)⟩]
      (fun _ => .pint 42) 100 [] [("x", .pevaluated 0 7)]
      = .ok ([("x", .pint 42)], ["x"]) := rfl

theorem classify_ok_sound {pos_args : Bool} :
    ∀ {params : List Param} {res : List String × List (String × Nat)},
      smart_args_classify pos_args params = .ok res →
      ∀ p ∈ params,
        (¬(defaultIsIso p = true ∧ defaultIsEva p = true)) ∧
        (p.kind = .posOnly → pos_args = false →
          defaultIsIso p = false ∧ defaultIsEva p = false) := by
  intro params
  induction params with
  | nil => intro res h p hp; simp at hp
  | cons q ps ih =>
    intro res h p hp
    rw [smart_args_classify] at h
    split at h
    · exact absurd h (by simp)
    · split at h
      · exact absurd h (by simp)
      · rename_i hc1 hc2
        rcases List.mem_cons.mp hp with rfl | hp'
        · simp at hc1 hc2
          constructor
          · rintro ⟨hiso, heva⟩
            rw [hc2 hiso] at heva; cases heva
          · intro hkind hpa
            exact hc1 (by simp [hkind]) (by simp [hkind]) (Or.inl hpa)
        · cases hps : smart_args_classify pos_args ps with
          | error e => rw [hps] at h; exact absurd h (by simp)
          | ok r => exact ih hps p hp'

/-- Claim C9: decoration via `smart_args` fails (never silently succeeds)
whenever some parameter's default is an instance of both the `Isolated`
and the `Evaluated` marker classes, and whenever a positional-only
parameter carries either marker as default while `pos_args` is false. -/
theorem c9_decoration_rejects_bad_markers (pos_args : Bool)
    (params : List Param)
    (hbad :
      (∃ p ∈ params, defaultIsIso p = true ∧ defaultIsEva p = true) ∨
      (pos_args = false ∧ ∃ p ∈ params, p.kind = .posOnly ∧
        (defaultIsIso p = true ∨ defaultIsEva p = true))) :
    ∀ res, smart_args_classify pos_args params ≠ .ok res := by
  intro res hok
  rcases hbad with ⟨p, hp, hiso, heva⟩ | ⟨hpa, p, hp, hkind, hm⟩
  · exact (classify_ok_sound hok p hp).1 ⟨hiso, heva⟩
  · rcases (classify_ok_sound hok p hp).2 hkind hpa with ⟨h1, h2⟩
    rcases hm with hm | hm
    · rw [hm] at h1; cases h1
    · rw [hm] at h2; cases h2

/-- Witness for C9: a keyword-only parameter whose default is an instance
of a subclass of both markers, with `pos_args = false`. -/
theorem c9_decoration_rejects_bad_markers_witness :
    ((∃ p ∈ [(⟨"x", ParamKind.kwOnly, some (.pboth 0 0)⟩ : Param)],
        defaultIsIso p = true ∧ defaultIsEva p = true) ∨
      (false = false ∧ ∃ p ∈ [(⟨"x", ParamKind.kwOnly, some (.pboth 0 0)⟩ : Param)],
        p.kind = .posOnly ∧
        (defaultIsIso p = true ∨ defaultIsEva p = true))) ∧
    ∀ res, smart_args_classify false
      [(⟨"x", ParamKind.kwOnly, some (.pboth 0 0)⟩ : Param)] ≠ .ok res :=
  ⟨Or.inl ⟨⟨"x", ParamKind.kwOnly, some (.pboth 0 0)⟩, by simp, rfl, rfl⟩,
    c9_decoration_rejects_bad_markers false _
      (Or.inl ⟨⟨"x", ParamKind.kwOnly, some (.pboth 0 0)⟩, by simp, rfl, rfl⟩)⟩

theorem lookupStr_updateStr_ne {β : Type} (k k' : String) (v : β)
    (m : List (String × β)) (h : k ≠ k') :
    lookupStr k (updateStr k' v m) = lookupStr k m := by
  induction m with
  | nil => rfl
  | cons q rest ih =>
    obtain ⟨a, b⟩ := q
    by_cases hk : a = k'
    · have hkq : ¬(k = a) := by rw [hk]; exact h
      simp [updateStr, lookupStr, hk, hkq, h]
    · by_cases hkq : k = a
      · simp [updateStr, lookupStr, hk, hkq]
      · simp [updateStr, lookupStr, hk, hkq, ih]

theorem lookupStr_updateStr_isSome {β : Type} (k k' : String) (v : β)
    (m : List (String × β)) (h : (lookupStr k m).isSome = true) :
    (lookupStr k (updateStr k' v m)).isSome = true := by
  induction m with
  | nil => simp [lookupStr] at h
  | cons q rest ih =>
    obtain ⟨a, b⟩ := q
    by_cases hk : a = k'
    · subst hk
      by_cases hkq : k = a
      · subst hkq
        simp [updateStr, lookupStr]
      · have hb : (k == a) = false := by simp [hkq]
        simp only [lookupStr, hb, Bool.false_eq_true, if_false] at h
        simp [updateStr, lookupStr, hb, h]
    · have hb2 : (a == k') = false := by simp [hk]
      by_cases hkq : k = a
      · subst hkq
        simp [updateStr, lookupStr, hb2]
      · have hb : (k == a) = false := by simp [hkq]
        simp only [lookupStr, hb, Bool.false_eq_true, if_false] at h
        simp [updateStr, lookupStr, hb2, hb, ih h]

theorem iso_pass_lookup_not_mem (name : String) :
    ∀ (iso : List String) (m : List (String × PyObj)) (c : Nat),
      name ∉ iso →
      lookupStr name (iso_pass iso (m, c)).1 = lookupStr name m := by
  intro iso
  induction iso with
  | nil => intro m c _; rfl
  | cons n rest ih =>
    intro m c hnot
    have hne : name ≠ n := fun he => hnot (he ▸ List.mem_cons_self n rest)
    have hnot' : name ∉ rest := fun hm => hnot (List.mem_cons_of_mem n hm)
    rw [iso_pass]
    cases hl : lookupStr n m with
    | none => exact ih m c hnot'
    | some v =>
      rw [ih _ _ hnot']
      exact lookupStr_updateStr_ne name n _ m hne

theorem iso_pass_lookup_isSome (name : String) :
    ∀ (iso : List String) (m : List (String × PyObj)) (c : Nat),
      (lookupStr name m).isSome = true →
      (lookupStr name (iso_pass iso (m, c)).1).isSome = true := by
  intro iso
  induction iso with
  | nil => intro m c h; exact h
  | cons n rest ih =>
    intro m c h
    rw [iso_pass]
    cases hl : lookupStr n m with
    | none => exact ih m c h
    | some v => exact ih _ _ (lookupStr_updateStr_isSome name n _ m h)

theorem lookupStr_param_filterMap_not_mem (F : Param → Option PyObj) :
    ∀ (params : List Param) (name : String), name ∉ params.map Param.name →
      lookupStr name
        (params.filterMap fun q => (F q).map fun v => (q.name, v)) = none := by
  intro params
  induction params with
  | nil => intro name _; rfl
  | cons q ps ih =>
    intro name hnot
    simp only [List.map_cons, List.mem_cons, not_or] at hnot
    obtain ⟨hne, hnot'⟩ := hnot
    rw [List.filterMap_cons]
    cases hF : F q with
    | none => exact ih name hnot'
    | some v =>
      simp only [Option.map_some']
      rw [lookupStr]
      simp only [beq_iff_eq, hne, if_false]
      exact ih name hnot'

theorem lookupStr_param_filterMap (F : Param → Option PyObj) :
    ∀ (params : List Param) (p : Param), p ∈ params →
      (params.map Param.name).Nodup →
      lookupStr p.name
        (params.filterMap fun q => (F q).map fun v => (q.name, v)) = F p := by
  intro params
  induction params with
  | nil => intro p hp; simp at hp
  | cons q ps ih =>
    intro p hp hnd
    simp only [List.map_cons, List.nodup_cons] at hnd
    obtain ⟨hqnotin, hnd'⟩ := hnd
    rw [List.filterMap_cons]
    rcases List.mem_cons.mp hp with rfl | hp'
    · cases hF : F p with
      | none => exact lookupStr_param_filterMap_not_mem F ps p.name hqnotin
      | some v => simp [lookupStr]
    · have hne : p.name ≠ q.name := by
        intro he
        exact hqnotin (he ▸ List.mem_map_of_mem Param.name hp')
      cases hF : F q with
      | none => exact ih p hp' hnd'
      | some v =>
        simp only [Option.map_some']
        rw [lookupStr]
        simp only [beq_iff_eq, hne, if_false]
        exact ih p hp' hnd'

theorem mem_name_unique {params : List Param}
    (hnd : (params.map Param.name).Nodup) {p q : Param}
    (hp : p ∈ params) (hq : q ∈ params) (hname : p.name = q.name) : p = q :=
  List.inj_on_of_nodup_map hnd hp hq hname

theorem find_name_eq {params : List Param}
    (hnd : (params.map Param.name).Nodup) {p : Param} (hp : p ∈ params) :
    params.find? (fun q => q.name == p.name) = some p := by
  induction params with
  | nil => simp at hp
  | cons q ps ih =>
    simp only [List.map_cons, List.nodup_cons] at hnd
    rcases List.mem_cons.mp hp with rfl | hp'
    · simp [List.find?_cons]
    · have hne : q.name ≠ p.name := fun he =>
        hnd.1 (he ▸ List.mem_map_of_mem Param.name hp')
      rw [List.find?_cons]
      have hb : (q.name == p.name) = false := by simp [hne]
      rw [hb]
      exact ih hnd.2 hp'

theorem classify_ok_spec {pos_args : Bool} :
    ∀ {params : List Param} {iso : List String} {eva : List (String × Nat)},
      smart_args_classify pos_args params = .ok (iso, eva) →
      iso.Sublist (params.map Param.name) ∧
      (eva.map Prod.fst).Sublist (params.map Param.name) ∧
      (∀ n ∈ iso, ∃ p, p ∈ params ∧ p.name = n ∧ defaultIsIso p = true) ∧
      (∀ q ∈ eva, ∃ p, p ∈ params ∧ p.name = q.1 ∧ defaultIsIso p = false ∧
        defaultIsEva p = true ∧ defaultThunk p = q.2) ∧
      (∀ p ∈ params, (defaultIsIso p = true → p.name ∈ iso) ∧
        (defaultIsIso p = false → defaultIsEva p = true →
          (p.name, defaultThunk p) ∈ eva)) := by
  intro params
  induction params with
  | nil =>
    intro iso eva h
    rw [smart_args_classify] at h
    simp only [Except.ok.injEq, Prod.mk.injEq] at h
    obtain ⟨h1, h2⟩ := h
    subst h1; subst h2
    refine ⟨List.Sublist.refl _, by simp, ?_, ?_, ?_⟩ <;> simp
  | cons q ps ih =>
    intro iso eva h
    rw [smart_args_classify] at h
    split at h
    · exact absurd h (by simp)
    · split at h
      · exact absurd h (by simp)
      · rename_i hc1 hc2
        cases hps : smart_args_classify pos_args ps with
        | error e => rw [hps] at h; exact absurd h (by simp)
        | ok r =>
          obtain ⟨iso', eva'⟩ := r
          rw [hps] at h
          simp only [Except.ok.injEq, Prod.mk.injEq] at h
          obtain ⟨h1, h2⟩ := h
          subst h1; subst h2
          obtain ⟨ih1, ih2, ih3, ih4, ih5⟩ := ih hps
          by_cases hiso : defaultIsIso q = true
          · simp only [hiso, if_true, Bool.not_true, Bool.false_and,
              if_false, Bool.true_and]
            refine ⟨List.Sublist.cons₂ _ ih1, List.Sublist.cons _ ih2,
              ?_, ?_, ?_⟩
            · intro n hn
              rcases List.mem_cons.mp hn with rfl | hn'
              · exact ⟨q, List.mem_cons_self q ps, rfl, hiso⟩
              · obtain ⟨p, hpm, hpn, hpi⟩ := ih3 n hn'
                exact ⟨p, List.mem_cons_of_mem q hpm, hpn, hpi⟩
            · intro e he
              obtain ⟨p, hpm, h1, h2, h3, h4⟩ := ih4 e he
              exact ⟨p, List.mem_cons_of_mem q hpm, h1, h2, h3, h4⟩
            · intro p hp
              rcases List.mem_cons.mp hp with rfl | hp'
              · exact ⟨fun _ => List.mem_cons_self p.name _,
                  fun hf => absurd hiso (by simp [hf])⟩
              · obtain ⟨ha, hb⟩ := ih5 p hp'
                exact ⟨fun hh => List.mem_cons_of_mem _ (ha hh), hb⟩
          · have hiso' : defaultIsIso q = false := Bool.not_eq_true _ |>.mp hiso
            simp only [hiso', if_false, Bool.not_false, Bool.true_and]
            by_cases heva : defaultIsEva q = true
            · simp only [heva, if_true]
              refine ⟨List.Sublist.cons _ ih1, ?_, ?_, ?_, ?_⟩
              · simpa using List.Sublist.cons₂ q.name ih2
              · intro n hn
                obtain ⟨p, hpm, hpn, hpi⟩ := ih3 n hn
                exact ⟨p, List.mem_cons_of_mem q hpm, hpn, hpi⟩
              · intro e he
                rcases List.mem_cons.mp he with rfl | he'
                · exact ⟨q, List.mem_cons_self q ps, rfl, hiso', heva, rfl⟩
                · obtain ⟨p, hpm, h1, h2, h3, h4⟩ := ih4 e he'
                  exact ⟨p, List.mem_cons_of_mem q hpm, h1, h2, h3, h4⟩
              · intro p hp
                rcases List.mem_cons.mp hp with rfl | hp'
                · exact ⟨fun hh => absurd hh (by simp [hiso']),
                    fun _ _ => List.mem_cons_self _ _⟩
                · obtain ⟨ha, hb⟩ := ih5 p hp'
                  exact ⟨ha, fun h1 h2 => List.mem_cons_of_mem _ (hb h1 h2)⟩
            · have heva' : defaultIsEva q = false := Bool.not_eq_true _ |>.mp heva
              simp only [heva', if_false]
              refine ⟨List.Sublist.cons _ ih1, List.Sublist.cons _ ih2,
                ?_, ?_, ?_⟩
              · intro n hn
                obtain ⟨p, hpm, hpn, hpi⟩ := ih3 n hn
                exact ⟨p, List.mem_cons_of_mem q hpm, hpn, hpi⟩
              · intro e he
                obtain ⟨p, hpm, h1, h2, h3, h4⟩ := ih4 e he
                exact ⟨p, List.mem_cons_of_mem q hpm, h1, h2, h3, h4⟩
              · intro p hp
                rcases List.mem_cons.mp hp with rfl | hp'
                · exact ⟨fun hh => absurd hh (by simp [hiso']),
                    fun _ hh => absurd hh (by simp [heva'])⟩
                · exact ih5 p hp'

theorem evalFires_congr (params : List Param)
    {m1 m2 : List (String × PyObj)} (k : String)
    (h : lookupStr k m1 = lookupStr k m2) :
    evalFires params m1 k = evalFires params m2 k := by
  unfold evalFires
  rw [h]

theorem sig_bind_nil_ok {params : List Param}
    {kwargs : List (String × PyObj)} {bound : List (String × PyObj)}
    (h : sig_bind params [] kwargs = .ok bound) :
    bound = params.filterMap fun q =>
      (lookupStr q.name kwargs).map fun v => (q.name, v) := by
  unfold sig_bind at h
  simp only [bindPositional, List.map_nil, List.nil_append] at h
  cases hkw : checkKwargs params [] kwargs with
  | error e => rw [hkw] at h; exact absurd h (by simp)
  | ok u =>
    rw [hkw] at h
    cases hm : checkMissing (kwargs.map fun q => q.1) params with
    | error e => rw [hm] at h; exact absurd h (by simp)
    | ok u' =>
      rw [hm] at h
      simp only [lookupStr, Except.ok.injEq] at h
      exact h.symm

theorem apply_defaults_eq_filterMap (params : List Param)
    (bound : List (String × PyObj)) :
    apply_defaults params bound = params.filterMap fun p =>
      ((lookupStr p.name bound).orElse fun _ => p.default).map
        fun v => (p.name, v) := by
  unfold apply_defaults
  apply List.filterMap_congr
  intro p _
  cases lookupStr p.name bound <;> cases hd : p.default <;>
    simp [Option.orElse]

theorem lookupStr_apply_defaults {params : List Param}
    (hnd : (params.map Param.name).Nodup) {p : Param} (hp : p ∈ params)
    (bound : List (String × PyObj)) :
    lookupStr p.name (apply_defaults params bound) =
      (lookupStr p.name bound).orElse fun _ => p.default := by
  rw [apply_defaults_eq_filterMap]
  exact lookupStr_param_filterMap _ params p hp hnd

theorem eval_pass_cons_eq (params : List Param) (thunkVal : Nat → PyObj)
    (name : String) (t : Nat) (rest : List (String × Nat))
    (argsMap : List (String × PyObj)) (v : PyObj)
    (hv : lookupStr name argsMap = some v) :
    eval_pass params thunkVal ((name, t) :: rest) argsMap =
      (if evalFires params argsMap name then
        match eval_pass params thunkVal rest
            (updateStr name (thunkVal t) argsMap) with
        | .error e => .error e
        | .ok (m, invs) => .ok (m, name :: invs)
      else eval_pass params thunkVal rest argsMap) := by
  rw [eval_pass, hv]
  have hpd : (match List.find? (fun p => p.name == name) params with
      | some p => p.default
      | none => none) = paramDefault params name := rfl
  rw [hpd]
  unfold evalFires
  rw [hv]
  cases hd : paramDefault params name <;> rfl

theorem eval_pass_spec (params : List Param) (thunkVal : Nat → PyObj) :
    ∀ (eva : List (String × Nat)) (argsMap : List (String × PyObj)),
      (∀ e ∈ eva, (lookupStr e.1 argsMap).isSome = true) →
      (eva.map Prod.fst).Nodup →
      ∃ m invs, eval_pass params thunkVal eva argsMap = .ok (m, invs) ∧
        (∀ e ∈ eva, invs.count e.1 =
          (if evalFires params argsMap e.1 = true then 1 else 0)) ∧
        (∀ k : String, k ∉ eva.map Prod.fst →
          invs.count k = 0 ∧ lookupStr k m = lookupStr k argsMap) := by
  intro eva
  induction eva with
  | nil =>
    intro argsMap hsome hnd
    exact ⟨argsMap, [], rfl, by simp, fun k _ => ⟨rfl, rfl⟩⟩
  | cons e rest ih =>
    obtain ⟨name, t⟩ := e
    intro argsMap hsome hnd
    simp only [List.map_cons, List.nodup_cons] at hnd
    obtain ⟨hnotin, hnd'⟩ := hnd
    have hs : (lookupStr name argsMap).isSome = true :=
      hsome (name, t) (List.mem_cons_self _ _)
    cases hv : lookupStr name argsMap with
    | none => rw [hv] at hs; cases hs
    | some v =>
      rw [eval_pass_cons_eq params thunkVal name t rest argsMap v hv]
      by_cases hf : evalFires params argsMap name = true
      · have hsome2 : ∀ e ∈ rest,
            (lookupStr e.1 (updateStr name (thunkVal t) argsMap)).isSome
              = true := fun e he =>
          lookupStr_updateStr_isSome e.1 name _ argsMap
            (hsome e (List.mem_cons_of_mem _ he))
        obtain ⟨m, invs, hrun, hcount, hout⟩ :=
          ih (updateStr name (thunkVal t) argsMap) hsome2 hnd'
        rw [if_pos hf, hrun]
        refine ⟨m, name :: invs, rfl, ?_, ?_⟩
        · intro e he
          rcases List.mem_cons.mp he with rfl | he'
          · have h0 : invs.count name = 0 := (hout name hnotin).1
            simp [List.count_cons, h0, hf]
          · have hne : e.1 ≠ name := fun hh =>
              hnotin (hh ▸ List.mem_map_of_mem Prod.fst he')
            have hlk : lookupStr e.1 (updateStr name (thunkVal t) argsMap)
                = lookupStr e.1 argsMap :=
              lookupStr_updateStr_ne e.1 name _ argsMap hne
            have hcc := hcount e he'
            rw [evalFires_congr params e.1 hlk] at hcc
            simp [List.count_cons, hne, hcc]
        · intro k hk
          simp only [List.map_cons, List.mem_cons, not_or] at hk
          obtain ⟨hk1, hk2⟩ := hk
          obtain ⟨hc, hl⟩ := hout k hk2
          refine ⟨by simp [List.count_cons, hk1, hc], ?_⟩
          rw [hl]
          exact lookupStr_updateStr_ne k name _ argsMap hk1
      · have hsome2 : ∀ e ∈ rest, (lookupStr e.1 argsMap).isSome = true :=
          fun e he => hsome e (List.mem_cons_of_mem _ he)
        obtain ⟨m, invs, hrun, hcount, hout⟩ := ih argsMap hsome2 hnd'
        rw [if_neg hf]
        have hf2 : evalFires params argsMap name = false :=
          Bool.not_eq_true _ |>.mp hf
        refine ⟨m, invs, hrun, ?_, ?_⟩
        · intro e he
          rcases List.mem_cons.mp he with rfl | he'
          · have h0 : invs.count name = 0 := (hout name hnotin).1
            simp [h0, hf2]
          · exact hcount e he'
        · intro k hk
          simp only [List.map_cons, List.mem_cons, not_or] at hk
          exact hout k hk.2

theorem smart_wrapper_eq {pos_args : Bool} {params : List Param}
    {thunkVal : Nat → PyObj} {fresh : Nat} {args : List PyObj}
    {kwargs : List (String × PyObj)} {iso : List String}
    {eva : List (String × Nat)} {bound : List (String × PyObj)}
    (hcls : smart_args_classify pos_args params = .ok (iso, eva))
    (hbind : sig_bind params args kwargs = .ok bound) :
    smart_wrapper pos_args params thunkVal fresh args kwargs =
      eval_pass params thunkVal eva
        (iso_pass iso (apply_defaults params bound, fresh)).1 := by
  unfold smart_wrapper
  rw [hcls, hbind]

/-- Claim C3 (amended): for a parameter declared with an `Evaluated` marker
default, in a call that binds every argument by keyword, the thunk is
invoked exactly once when the parameter is omitted, and exactly zero times
when the caller supplies a value that does not compare `==` equal to the
declared marker — but still once if the supplied value compares equal to
the marker (for example, the marker object itself). -/
theorem c3_evaluated_thunk_invocation (pos_args : Bool)
    (params : List Param) (thunkVal : Nat → PyObj) (fresh : Nat)
    (kwargs : List (String × PyObj)) (p : Param) (d : PyObj)
    (iso : List String) (eva : List (String × Nat))
    (bound : List (String × PyObj))
    (hnd : (params.map Param.name).Nodup)
    (hp : p ∈ params) (hd : p.default = some d)
    (heva : isInstanceEvaluated d = true)
    (hiso : isInstanceIsolated d = false)
    (hcls : smart_args_classify pos_args params = .ok (iso, eva))
    (hbind : sig_bind params [] kwargs = .ok bound) :
    ∃ m invs, smart_wrapper pos_args params thunkVal fresh [] kwargs
        = .ok (m, invs) ∧
      invs.count p.name =
        (match lookupStr p.name kwargs with
         | none => 1
         | some v => if PyObj.beq v d = true then 1 else 0) := by
  have hdiso : defaultIsIso p = false := by
    unfold defaultIsIso; rw [hd]; exact hiso
  have hdeva : defaultIsEva p = true := by
    unfold defaultIsEva; rw [hd]; exact heva
  obtain ⟨spec1, spec2, spec3, spec4, spec5⟩ := classify_ok_spec hcls
  have hmem_eva : (p.name, defaultThunk p) ∈ eva := (spec5 p hp).2 hdiso hdeva
  have hnotin_iso : p.name ∉ iso := by
    intro hin
    obtain ⟨p', hp'm, hp'n, hp'i⟩ := spec3 p.name hin
    have hpp : p' = p := mem_name_unique hnd hp'm hp hp'n
    rw [hpp, hdiso] at hp'i
    cases hp'i
  have hevand : (eva.map Prod.fst).Nodup := spec2.nodup hnd
  have hboundval := sig_bind_nil_ok hbind
  have hlb : lookupStr p.name bound = lookupStr p.name kwargs := by
    rw [hboundval]
    exact lookupStr_param_filterMap
      (fun q => lookupStr q.name kwargs) params p hp hnd
  have hla : lookupStr p.name (apply_defaults params bound)
      = (lookupStr p.name kwargs).orElse fun _ => p.default := by
    rw [lookupStr_apply_defaults hnd hp bound, hlb]
  have hlim : lookupStr p.name
      (iso_pass iso (apply_defaults params bound, fresh)).1
      = (lookupStr p.name kwargs).orElse fun _ => p.default := by
    rw [iso_pass_lookup_not_mem p.name iso _ fresh hnotin_iso, hla]
  have hsome : ∀ e ∈ eva, (lookupStr e.1
      (iso_pass iso (apply_defaults params bound, fresh)).1).isSome
      = true := by
    intro e he
    obtain ⟨pe, hpem, hpen, hpei, hpee, hpet⟩ := spec4 e he
    apply iso_pass_lookup_isSome
    rw [← hpen, lookupStr_apply_defaults hnd hpem bound]
    have hds : pe.default.isSome = true := by
      unfold defaultIsEva at hpee
      cases hpd2 : pe.default
      · rw [hpd2] at hpee; cases hpee
      · simp
    cases hlk : lookupStr pe.name bound
    · simpa [Option.orElse] using hds
    · simp [Option.orElse]
  obtain ⟨m, invs, hrun, hcount, hout⟩ :=
    eval_pass_spec params thunkVal eva
      (iso_pass iso (apply_defaults params bound, fresh)).1 hsome hevand
  have hpd : paramDefault params p.name = some d := by
    unfold paramDefault
    rw [find_name_eq hnd hp]
    exact hd
  have hfire : evalFires params
      (iso_pass iso (apply_defaults params bound, fresh)).1 p.name
      = (match lookupStr p.name kwargs with
         | none => PyObj.beq d d
         | some v => PyObj.beq v d) := by
    unfold evalFires
    rw [hlim, hpd]
    cases lookupStr p.name kwargs <;> simp [Option.orElse, hd]
  refine ⟨m, invs, ?_, ?_⟩
  · rw [smart_wrapper_eq hcls hbind]
    exact hrun
  · have hc := hcount (p.name, defaultThunk p) hmem_eva
    rw [hfire] at hc
    have hbd : PyObj.beq d d = true := by
      cases d with
      | pevaluated i t0 => simp [PyObj.beq]
      | pboth i t0 => simp [isInstanceIsolated] at hiso
      | pint k => simp [isInstanceEvaluated] at heva
      | pstr s => simp [isInstanceEvaluated] at heva
      | plist l => simp [isInstanceEvaluated] at heva
      | pisolated i => simp [isInstanceEvaluated] at heva
    cases hk : lookupStr p.name kwargs with
    | none =>
      rw [hk] at hc
      simpa [hbd] using hc
    | some v =>
      rw [hk] at hc
      simpa using hc

/-- Witness for C3: a single keyword-only Evaluated parameter, omitted by
the caller; its thunk runs exactly once. -/
theorem c3_evaluated_thunk_invocation_witness :
    (([(⟨"x", ParamKind.kwOnly, some (.pevaluated 0 7)⟩ : Param)].map
        Param.name).Nodup ∧
      (⟨"x", ParamKind.kwOnly, some (.pevaluated 0 7)⟩ : Param) ∈
        [(⟨"x", ParamKind.kwOnly, some (.pevaluated 0 7)⟩ : Param)] ∧
      smart_args_classify false
        [(⟨"x", ParamKind.kwOnly, some (.pevaluated 0 7)⟩ : Param)]
        = .ok ([], [("x", 7)]) ∧
      sig_bind [(⟨"x", ParamKind.kwOnly, some (.pevaluated 0 7)⟩ : Param)]
        [] [] = .ok []) ∧
    ∃ m invs, smart_wrapper false
        [(⟨"x", ParamKind.kwOnly, some (.pevaluated 0 7)⟩ : Param)]
        (fun _ => .pint 42) 100 [] [] = .ok (m, invs) ∧
      invs.count "x" = 1 :=
  ⟨⟨by simp, by simp, rfl, rfl⟩,
    c3_evaluated_thunk_invocation false
      [(⟨"x", ParamKind.kwOnly, some (.pevaluated 0 7)⟩ : Param)]
      (fun _ => .pint 42) 100 []
      ⟨"x", ParamKind.kwOnly, some (.pevaluated 0 7)⟩ (.pevaluated 0 7)
      [] [("x", 7)] [] (by simp) (by simp) rfl rfl rfl rfl rfl⟩

mutual
theorem deepcopyObj_counter_le (n : Nat) (v : PyObj) :
    n ≤ (deepcopyObj n v).2 := by
  cases v with
  | pint k => simp [deepcopyObj]
  | pstr s => simp [deepcopyObj]
  | plist xs =>
    have h := deepcopyObjList_counter_le n xs
    simp only [deepcopyObj]
    exact h
  | pisolated i => simp [deepcopyObj]
  | pevaluated i t => simp [deepcopyObj]
  | pboth i t => simp [deepcopyObj]

theorem deepcopyObjList_counter_le (n : Nat) (l : List PyObj) :
    n ≤ (deepcopyObjList n l).2 := by
  cases l with
  | nil => simp [deepcopyObjList]
  | cons x xs =>
    have h1 := deepcopyObj_counter_le n x
    have h2 := deepcopyObjList_counter_le (deepcopyObj n x).2 xs
    simp only [deepcopyObjList]
    omega
end

theorem lookupStr_updateStr_self {β : Type} (k : String) (x : β) :
    ∀ (m : List (String × β)), (lookupStr k m).isSome = true →
      lookupStr k (updateStr k x m) = some x := by
  intro m
  induction m with
  | nil => intro h; simp [lookupStr] at h
  | cons q rest ih =>
    obtain ⟨a, b⟩ := q
    intro h
    by_cases hkq : k = a
    · subst hkq
      simp [updateStr, lookupStr]
    · have hb : (k == a) = false := by simp [hkq]
      have hb2 : (a == k) = false := by
        simp only [beq_eq_false_iff_ne, ne_eq]
        exact fun he => hkq he.symm
      simp only [lookupStr, hb, Bool.false_eq_true, if_false] at h
      simp [updateStr, lookupStr, hb, hb2, ih h]

theorem iso_pass_processes (name : String) :
    ∀ (iso : List String) (m : List (String × PyObj)) (c : Nat) (v : PyObj),
      iso.Nodup → name ∈ iso → lookupStr name m = some v →
      ∃ c', c ≤ c' ∧
        lookupStr name (iso_pass iso (m, c)).1
          = some (deepcopyObj c' v).1 := by
  intro iso
  induction iso with
  | nil => intro m c v _ hmem; simp at hmem
  | cons n rest ih =>
    intro m c v hnd hmem hv
    simp only [List.nodup_cons] at hnd
    obtain ⟨hnotin, hnd'⟩ := hnd
    rcases List.mem_cons.mp hmem with rfl | hmem'
    · rw [iso_pass, hv]
      rw [iso_pass_lookup_not_mem name rest _ _ hnotin]
      refine ⟨c, le_refl c, ?_⟩
      apply lookupStr_updateStr_self
      rw [hv]
      rfl
    · have hne : n ≠ name := fun he => hnotin (he ▸ hmem')
      rw [iso_pass]
      cases hl : lookupStr n m with
      | none => exact ih m c v hnd' hmem' hv
      | some w =>
        have hv2 : lookupStr name (updateStr n (deepcopyObj c w).1 m)
            = some v := by
          rw [lookupStr_updateStr_ne name n _ m fun he => hne he.symm]
          exact hv
        obtain ⟨c', hc', hl'⟩ := ih _ _ v hnd' hmem' hv2
        exact ⟨c', le_trans (deepcopyObj_counter_le c w) hc', hl'⟩

/-- Claim C10: a keyword call omitting a parameter whose declared default
is an `Isolated` marker does not raise — `apply_defaults` binds the raw
marker, and the isolation pass deep-copies every bound isolated parameter,
defaulted ones included — so the wrapped function body receives a fresh
deep copy of the `Isolated` marker object itself (a marker instance with a
new identity) as that argument's value. -/
theorem c10_isolated_default_deepcopied (pos_args : Bool)
    (params : List Param) (thunkVal : Nat → PyObj) (fresh : Nat)
    (kwargs : List (String × PyObj)) (p : Param) (i : Nat)
    (iso : List String) (eva : List (String × Nat))
    (bound : List (String × PyObj))
    (hnd : (params.map Param.name).Nodup)
    (hp : p ∈ params) (hd : p.default = some (.pisolated i))
    (hcls : smart_args_classify pos_args params = .ok (iso, eva))
    (hbind : sig_bind params [] kwargs = .ok bound)
    (homit : lookupStr p.name kwargs = none)
    (hfresh : i < fresh) :
    ∃ m invs j, smart_wrapper pos_args params thunkVal fresh [] kwargs
        = .ok (m, invs) ∧
      lookupStr p.name m = some (.pisolated j) ∧ fresh ≤ j ∧ j ≠ i := by
  have hdiso : defaultIsIso p = true := by
    unfold defaultIsIso; rw [hd]; rfl
  obtain ⟨spec1, spec2, spec3, spec4, spec5⟩ := classify_ok_spec hcls
  have hmem_iso : p.name ∈ iso := (spec5 p hp).1 hdiso
  have hisond : iso.Nodup := spec1.nodup hnd
  have hboundval := sig_bind_nil_ok hbind
  have hlb : lookupStr p.name bound = lookupStr p.name kwargs := by
    rw [hboundval]
    exact lookupStr_param_filterMap
      (fun q => lookupStr q.name kwargs) params p hp hnd
  have hla : lookupStr p.name (apply_defaults params bound)
      = some (.pisolated i) := by
    rw [lookupStr_apply_defaults hnd hp bound, hlb, homit]
    simp [Option.orElse, hd]
  obtain ⟨c', hc', hl'⟩ := iso_pass_processes p.name iso
    (apply_defaults params bound) fresh (.pisolated i) hisond hmem_iso hla
  have hdc : (deepcopyObj c' (PyObj.pisolated i)).1 = .pisolated c' := rfl
  rw [hdc] at hl'
  have hnotineva : p.name ∉ eva.map Prod.fst := by
    intro hin
    obtain ⟨e, hem, hee⟩ := List.mem_map.mp hin
    obtain ⟨p', hp'm, hp'n, hp'i, _, _⟩ := spec4 e hem
    rw [hee] at hp'n
    have hpp : p' = p := mem_name_unique hnd hp'm hp hp'n
    rw [hpp, hdiso] at hp'i
    cases hp'i
  have hevand : (eva.map Prod.fst).Nodup := spec2.nodup hnd
  have hsome : ∀ e ∈ eva, (lookupStr e.1
      (iso_pass iso (apply_defaults params bound, fresh)).1).isSome
      = true := by
    intro e he
    obtain ⟨pe, hpem, hpen, hpei, hpee, hpet⟩ := spec4 e he
    apply iso_pass_lookup_isSome
    rw [← hpen, lookupStr_apply_defaults hnd hpem bound]
    have hds : pe.default.isSome = true := by
      unfold defaultIsEva at hpee
      cases hpd2 : pe.default
      · rw [hpd2] at hpee; cases hpee
      · simp
    cases hlk : lookupStr pe.name bound
    · simpa [Option.orElse] using hds
    · simp [Option.orElse]
  obtain ⟨m, invs, hrun, hcount, hout⟩ :=
    eval_pass_spec params thunkVal eva
      (iso_pass iso (apply_defaults params bound, fresh)).1 hsome hevand
  refine ⟨m, invs, c', ?_, ?_, hc', by omega⟩
  · rw [smart_wrapper_eq hcls hbind]
    exact hrun
  · rw [(hout p.name hnotineva).2, hl']

/-- Witness for C10: a single keyword-only Isolated parameter with marker
identity 3, omitted by the caller, fresh identities from 100. -/
theorem c10_isolated_default_deepcopied_witness :
    (([(⟨"x", ParamKind.kwOnly, some (.pisolated 3)⟩ : Param)].map
        Param.name).Nodup ∧
      (⟨"x", ParamKind.kwOnly, some (.pisolated 3)⟩ : Param) ∈
        [(⟨"x", ParamKind.kwOnly, some (.pisolated 3)⟩ : Param)] ∧
      smart_args_classify false
        [(⟨"x", ParamKind.kwOnly, some (.pisolated 3)⟩ : Param)]
        = .ok (["x"], []) ∧
      sig_bind [(⟨"x", ParamKind.kwOnly, some (.pisolated 3)⟩ : Param)]
        [] [] = .ok [] ∧
      (3 : Nat) < 100) ∧
    ∃ m invs j, smart_wrapper false
        [(⟨"x", ParamKind.kwOnly, some (.pisolated 3)⟩ : Param)]
        (fun _ => .pint 42) 100 [] [] = .ok (m, invs) ∧
      lookupStr "x" m = some (.pisolated j) ∧ 100 ≤ j ∧ j ≠ 3 :=
  ⟨⟨by simp, by simp, rfl, rfl, by decide⟩,
    c10_isolated_default_deepcopied false
      [(⟨"x", ParamKind.kwOnly, some (.pisolated 3)⟩ : Param)]
      (fun _ => .pint 42) 100 []
      ⟨"x", ParamKind.kwOnly, some (.pisolated 3)⟩ 3 ["x"] [] []
      (by simp) (by simp) rfl rfl rfl rfl (by decide)⟩

theorem Heap.get_some_lt {h : Heap} {a : Nat} {obj : List HVal}
    (hget : h.get a = some obj) : a < h.objs.length := by
  by_contra hge
  unfold Heap.get at hget
  rw [List.getElem?_eq_none (by omega)] at hget
  cases hget

theorem Heap.get_write_ne {h : Heap} {b : Nat} {o : List HVal} {a : Nat}
    (hne : a ≠ b) : (h.write b o).get a = h.get a := by
  unfold Heap.get Heap.write
  exact List.getElem?_set_ne fun he => hne he.symm

theorem SegAbove_write {n : Nat} {h : Heap} {b : Nat} {o : List HVal}
    (hseg : SegAbove n h) (ho : o.all (HVal.above n) = true) :
    SegAbove n (h.write b o) := by
  intro a obj ha hget w hw
  by_cases hab : a = b
  · subst hab
    by_cases hlt : a < h.objs.length
    · have hgets : (h.write a o).get a = some o := by
        unfold Heap.get Heap.write
        exact List.getElem?_set_self hlt
      rw [hgets] at hget
      obtain rfl : o = obj := by injection hget
      exact List.all_eq_true.mp ho w hw
    · have hgets : (h.write a o).get a = h.get a := by
        unfold Heap.get Heap.write
        rw [List.set_eq_of_length_le (by omega)]
      rw [hgets] at hget
      exact hseg a obj ha hget w hw
  · rw [Heap.get_write_ne hab] at hget
    exact hseg a obj ha hget w hw

theorem copyListWith_fresh (f : Heap → HVal → Option (Heap × HVal)) (n : Nat)
    (hf : ∀ h v h' v', f h v = some (h', v') →
      (∃ ext, h'.objs = h.objs ++ ext) ∧
      (n ≤ h.objs.length → SegAbove n h →
        SegAbove n h' ∧ HVal.above n v' = true)) :
    ∀ (l : List HVal) (h h' : Heap) (l' : List HVal),
      copyListWith f h l = some (h', l') →
      (∃ ext, h'.objs = h.objs ++ ext) ∧
      (n ≤ h.objs.length → SegAbove n h →
        SegAbove n h' ∧ ∀ w ∈ l', HVal.above n w = true) := by
  intro l
  induction l with
  | nil =>
    intro h h' l' hc
    rw [copyListWith] at hc
    simp only [Option.some.injEq, Prod.mk.injEq] at hc
    obtain ⟨rfl, rfl⟩ := hc
    exact ⟨⟨[], by simp⟩, fun _ hseg => ⟨hseg, by simp⟩⟩
  | cons v vs ih =>
    intro h h' l' hc
    rw [copyListWith] at hc
    cases hfv : f h v with
    | none => simp only [hfv] at hc; cases hc
    | some r =>
      obtain ⟨h1, v1⟩ := r
      simp only [hfv] at hc
      cases hrest : copyListWith f h1 vs with
      | none => simp only [hrest] at hc; cases hc
      | some r2 =>
        obtain ⟨h2, vs'⟩ := r2
        simp only [hrest] at hc
        simp only [Option.some.injEq, Prod.mk.injEq] at hc
        obtain ⟨rfl, rfl⟩ := hc
        obtain ⟨⟨ext1, hext1⟩, hcond1⟩ := hf h v h1 v1 hfv
        obtain ⟨⟨ext2, hext2⟩, hcond2⟩ := ih h1 h2 vs' hrest
        refine ⟨⟨ext1 ++ ext2, by rw [hext2, hext1, List.append_assoc]⟩, ?_⟩
        intro hn hseg
        obtain ⟨hseg1, hv1⟩ := hcond1 hn hseg
        have hn1 : n ≤ h1.objs.length := by
          rw [hext1]; simp only [List.length_append]; omega
        obtain ⟨hseg2, hvs⟩ := hcond2 hn1 hseg1
        refine ⟨hseg2, fun w hw => ?_⟩
        rcases List.mem_cons.mp hw with rfl | hw'
        · exact hv1
        · exact hvs w hw'

theorem deepcopyVal_fresh (n : Nat) :
    ∀ (fuel : Nat) (h : Heap) (v : HVal) (h' : Heap) (v' : HVal),
      deepcopyVal fuel h v = some (h', v') →
      (∃ ext, h'.objs = h.objs ++ ext) ∧
      (n ≤ h.objs.length → SegAbove n h →
        SegAbove n h' ∧ HVal.above n v' = true) := by
  intro fuel
  induction fuel with
  | zero =>
    intro h v h' v' hc
    cases v with
    | hint k =>
      rw [deepcopyVal] at hc
      simp only [Option.some.injEq, Prod.mk.injEq] at hc
      obtain ⟨rfl, rfl⟩ := hc
      exact ⟨⟨[], by simp⟩, fun _ hseg => ⟨hseg, rfl⟩⟩
    | href a => rw [deepcopyVal] at hc; cases hc
  | succ fuel ih =>
    intro h v h' v' hc
    cases v with
    | hint k =>
      rw [deepcopyVal] at hc
      simp only [Option.some.injEq, Prod.mk.injEq] at hc
      obtain ⟨rfl, rfl⟩ := hc
      exact ⟨⟨[], by simp⟩, fun _ hseg => ⟨hseg, rfl⟩⟩
    | href a =>
      rw [deepcopyVal] at hc
      cases hg : h.get a with
      | none => simp only [hg] at hc; cases hc
      | some obj =>
        simp only [hg] at hc
        cases hcl : copyListWith (deepcopyVal fuel) h obj with
        | none => simp only [hcl] at hc; cases hc
        | some r =>
          obtain ⟨h1, obj'⟩ := r
          simp only [hcl] at hc
          simp only [Option.some.injEq, Prod.mk.injEq] at hc
          obtain ⟨rfl, rfl⟩ := hc
          obtain ⟨⟨ext1, hext1⟩, hcond⟩ :=
            copyListWith_fresh _ n ih obj h h1 obj' hcl
          refine ⟨⟨ext1 ++ [obj'], by simp [hext1]⟩, ?_⟩
          intro hn hseg
          obtain ⟨hseg1, hobj'⟩ := hcond hn hseg
          have hn1 : n ≤ h1.objs.length := by
            rw [hext1]; simp only [List.length_append]; omega
          constructor
          · intro a2 obj2 ha2 hget w hw
            by_cases hlt : a2 < h1.objs.length
            · have hg2 : (Heap.mk (h1.objs ++ [obj'])).get a2 = h1.get a2 := by
                unfold Heap.get
                exact List.getElem?_append_left hlt
              rw [hg2] at hget
              exact hseg1 a2 obj2 ha2 hget w hw
            · by_cases heq : a2 = h1.objs.length
              · subst heq
                have hg2 : (Heap.mk (h1.objs ++ [obj'])).get h1.objs.length
                    = some obj' := by
                  unfold Heap.get
                  rw [List.getElem?_append_right (le_refl _)]
                  simp
                rw [hg2] at hget
                obtain rfl : obj' = obj2 := by injection hget
                exact hobj' w hw
              · have hg2 : (Heap.mk (h1.objs ++ [obj'])).get a2 = none := by
                  unfold Heap.get
                  rw [List.getElem?_eq_none]
                  simp only [List.length_append, List.length_cons,
                    List.length_nil]
                  omega
                rw [hg2] at hget
                cases hget
          · simp only [HVal.above, decide_eq_true_eq]
            omega

theorem reachListWith_forall (f : HVal → List Nat) (P : Nat → Prop) :
    ∀ (l : List HVal), (∀ v ∈ l, ∀ a ∈ f v, P a) →
      ∀ a ∈ reachListWith f l, P a := by
  intro l
  induction l with
  | nil => intro _ a ha; simp [reachListWith] at ha
  | cons v vs ih =>
    intro hall a ha
    rw [reachListWith] at ha
    rcases List.mem_append.mp ha with h1 | h2
    · exact hall v (List.mem_cons_self _ _) a h1
    · exact ih (fun w hw => hall w (List.mem_cons_of_mem _ hw)) a h2

theorem reachAddrs_above (n : Nat) :
    ∀ (m : Nat) (h : Heap) (v : HVal), SegAbove n h →
      HVal.above n v = true → ∀ a ∈ reachAddrs m h v, n ≤ a := by
  intro m
  induction m with
  | zero =>
    intro h v hseg hab a ha
    cases v with
    | hint k => simp [reachAddrs] at ha
    | href b =>
      rw [reachAddrs] at ha
      simp only [List.mem_singleton] at ha
      subst ha
      simpa [HVal.above] using hab
  | succ m ih =>
    intro h v hseg hab a ha
    cases v with
    | hint k => simp [reachAddrs] at ha
    | href b =>
      rw [reachAddrs] at ha
      have hnb : n ≤ b := by simpa [HVal.above] using hab
      rcases List.mem_cons.mp ha with rfl | ha'
      · exact hnb
      · cases hg : h.get b with
        | none => rw [hg] at ha'; simp at ha'
        | some obj =>
          rw [hg] at ha'
          exact reachListWith_forall _ _ obj
            (fun w hw => ih h w hseg (hseg b obj hnb hg w hw)) a ha'

theorem readListWith_mono (f g : HVal → Option PyTree)
    (hfg : ∀ v t, f v = some t → g v = some t) :
    ∀ (l : List HVal) (ts : List PyTree),
      readListWith f l = some ts → readListWith g l = some ts := by
  intro l
  induction l with
  | nil => intro ts hr; exact hr
  | cons v vs ih =>
    intro ts hr
    rw [readListWith] at hr ⊢
    cases hv : f v with
    | none => rw [hv] at hr; cases hr
    | some t =>
      rw [hv] at hr
      cases hrest : readListWith f vs with
      | none => rw [hrest] at hr; simp at hr
      | some ts' =>
        rw [hrest] at hr
        simp only [Option.some.injEq] at hr
        rw [hfg v t hv, ih ts' hrest]
        exact congrArg some hr

theorem readVal_agree :
    ∀ (m : Nat) (h h2 : Heap),
      (∀ a obj, h.get a = some obj → h2.get a = some obj) →
      ∀ (v : HVal) (t : PyTree), readVal m h v = some t →
        readVal m h2 v = some t := by
  intro m
  induction m with
  | zero =>
    intro h h2 hsub v t hr
    cases v with
    | hint k => exact hr
    | href a => rw [readVal] at hr; cases hr
  | succ m ih =>
    intro h h2 hsub v t hr
    cases v with
    | hint k => exact hr
    | href a =>
      rw [readVal] at hr ⊢
      cases hg : h.get a with
      | none => simp only [hg] at hr; cases hr
      | some obj =>
        simp only [hg] at hr
        simp only [hsub a obj hg]
        cases hl : readListWith (readVal m h) obj with
        | none => simp only [hl] at hr; cases hr
        | some ts =>
          simp only [hl] at hr
          rw [readListWith_mono _ _ (fun w t' hw => ih h h2 hsub w t' hw)
            obj ts hl]
          exact hr

/-- Claim C8: the isolation pass of `smart_args` protects the caller's
object.  When the deep copy of the bound value `v` yields the copy `v'` in
heap `h'`, every sequence of mutations the wrapped function body performs
through the copy — writes to addresses reachable from `v'`, storing values
derived from the copy — leaves the structural value the caller observes of
the original `v` unchanged: the body received a structurally independent
deep copy. -/
theorem c8_deepcopy_isolates (fuel rfuel mfuel : Nat) (h h' : Heap)
    (v v' : HVal) (t : PyTree) (ws : List (Nat × List HVal))
    (hcopy : deepcopyVal fuel h v = some (h', v'))
    (horig : readVal rfuel h v = some t)
    (hws : okWrites h.objs.length mfuel v' h' ws = true) :
    readVal rfuel (execWrites h' ws) v = some t := by
  obtain ⟨⟨ext, hext⟩, hcond⟩ :=
    deepcopyVal_fresh h.objs.length fuel h v h' v' hcopy
  have hsegh : SegAbove h.objs.length h := by
    intro a obj ha hget w hw
    exact absurd (Heap.get_some_lt hget) (by omega)
  obtain ⟨hseg', habove⟩ := hcond (le_refl _) hsegh
  have hsub0 : ∀ a obj, h.get a = some obj → h'.get a = some obj := by
    intro a obj hget
    have hlt : a < h.objs.length := Heap.get_some_lt hget
    unfold Heap.get at hget ⊢
    rw [hext, List.getElem?_append_left hlt]
    exact hget
  have hinv : ∀ (ws2 : List (Nat × List HVal)) (hc : Heap),
      (∀ a obj, h.get a = some obj → hc.get a = some obj) →
      SegAbove h.objs.length hc →
      okWrites h.objs.length mfuel v' hc ws2 = true →
      ∀ a obj, h.get a = some obj →
        (execWrites hc ws2).get a = some obj := by
    intro ws2
    induction ws2 with
    | nil => intro hc hsub _ _ a obj hget; exact hsub a obj hget
    | cons w rest ih =>
      obtain ⟨b, o⟩ := w
      intro hc hsub hseg hok a obj hget
      rw [okWrites] at hok
      simp only [Bool.and_eq_true, decide_eq_true_eq] at hok
      obtain ⟨⟨hreach, hall⟩, hok2⟩ := hok
      have hb : h.objs.length ≤ b :=
        reachAddrs_above h.objs.length mfuel hc v' hseg habove b hreach
      have hsub1 : ∀ a2 obj2, h.get a2 = some obj2 →
          (hc.write b o).get a2 = some obj2 := by
        intro a2 obj2 hget2
        have hlt : a2 < h.objs.length := Heap.get_some_lt hget2
        rw [Heap.get_write_ne (by omega)]
        exact hsub a2 obj2 hget2
      have hseg1 : SegAbove h.objs.length (hc.write b o) :=
        SegAbove_write hseg hall
      exact ih (hc.write b o) hsub1 hseg1 hok2 a obj hget
  exact readVal_agree rfuel h _ (hinv ws h' hsub0 hseg' hws) v t horig

/-- Witness for C8: the caller's object at address 1 references the list
`[5]` at address 0; the deep copy allocates addresses 2 and 3; the body
overwrites the copied inner list (address 2) with `[99]`; the original
still reads as `[[5]]`. -/
theorem c8_deepcopy_isolates_witness :
    (deepcopyVal 3 ⟨[[.hint 5], [.href 0]]⟩ (.href 1)
        = some (⟨[[.hint 5], [.href 0], [.hint 5], [.href 2]]⟩, .href 3) ∧
      readVal 3 ⟨[[.hint 5], [.href 0]]⟩ (.href 1)
        = some (.tlist [.tlist [.tint 5]]) ∧
      okWrites 2 3 (.href 3) ⟨[[.hint 5], [.href 0], [.hint 5], [.href 2]]⟩
        [(2, [.hint 99])] = true) ∧
    readVal 3 (execWrites ⟨[[.hint 5], [.href 0], [.hint 5], [.href 2]]⟩
        [(2, [.hint 99])]) (.href 1) = some (.tlist [.tlist [.tint 5]]) :=
  ⟨⟨rfl, rfl, rfl⟩,
    c8_deepcopy_isolates 3 3 3 ⟨[[.hint 5], [.href 0]]⟩
      ⟨[[.hint 5], [.href 0], [.hint 5], [.href 2]]⟩ (.href 1) (.href 3)
      (.tlist [.tlist [.tint 5]]) [(2, [.hint 99])] rfl rfl rfl⟩
